import Mathlib

/-!
Verification of the caches-rs repository core: the single-tier LRU engine
(`src/raw.rs`, `RawLRU`) and the two-queue layered cache
(`src/two_queue.rs`, `TwoQueueCache`).

Modelling conventions (shallow embedding):

* The source keeps entries simultaneously in a hash map and in an intrusive
  doubly-linked recency list, with the invariant (spec §3) that both hold
  exactly the same entries.  The model collapses the two into a single
  association list `list : List (K × V)`, ordered most-recently-used first
  (the list head corresponds to `head.next` in the source, the list's last
  element to `tail.prev`).  `map.len()` is `list.length`.
* Rust `f64` ratios are modelled as rationals (`ℚ`); every concrete ratio
  appearing in the development (`0.25`, `0.5`, ...) is exactly representable
  in `f64` and the products involved are exact, so concrete computations
  transfer.
* A Rust panic (a failing `unwrap` on the map lookup of a sentinel key, or
  on a key concurrently dropped from the ghost tier) is modelled by `none`:
  fallible operations return `Option`.
* The eviction-notification callback is modelled by returning the evicted
  pairs (for `resize`, the list of callback invocations in order); the
  layered cache instantiates sub-caches with the no-op callback.
-/

namespace Caches

/-- Result of a put operation (`PutResult` in `src/lib.rs`). -/
inductive PutResult (K V : Type) where
  | Put : PutResult K V
  | Update : V → PutResult K V
  | Evicted : K → V → PutResult K V
  | EvictedAndUpdate : K → V → V → PutResult K V
  deriving DecidableEq, Repr

/-- Construction-time errors (`CacheError` in `src/lib.rs`); `f64` ratios modelled as `ℚ`. -/
inductive CacheError where
  | InvalidSize : Nat → CacheError
  | InvalidRecentRatio : ℚ → CacheError
  | InvalidGhostRatio : ℚ → CacheError
  deriving DecidableEq, Repr

/-- Key lookup in the association list (the hash map access `self.map.get(&k)`). -/
def lookup {K V : Type} [DecidableEq K] : List (K × V) → K → Option V
  | [], _ => none
  | (k', v') :: rest, k => if k' = k then some v' else lookup rest k

/-- Removal of the (unique) entry with key `k` from the association list
(`self.map.remove(&k)` followed by `detach`). -/
def removeKey {K V : Type} [DecidableEq K] : List (K × V) → K → List (K × V)
  | [], _ => []
  | (k', v') :: rest, k => if k' = k then rest else (k', v') :: removeKey rest k

/-- The single-tier LRU engine `RawLRU` of `src/raw.rs`: a capacity and the
recency list (MRU first), standing for the fused map + intrusive list. -/
structure RawLRU (K V : Type) where
  cap : Nat
  list : List (K × V)
  deriving DecidableEq, Repr

namespace RawLRU

variable {K V : Type} [DecidableEq K]

/-- `check_size` of `src/raw.rs` (lines 120-126). -/
def check_size (size : Nat) : Except CacheError Unit :=
  if size = 0 then .error (.InvalidSize 0) else .ok ()

/-- `RawLRU::new` (line 149): validate the capacity, start empty. -/
def new (K V : Type) [DecidableEq K] (cap : Nat) : Except CacheError (RawLRU K V) :=
  (check_size cap).map (fun _ => ⟨cap, []⟩)

/-- `RawLRU::len` (line 648): `self.map.len()`. -/
def len (c : RawLRU K V) : Nat := c.list.length

/-- `RawLRU::is_empty` (line 664). -/
def is_empty (c : RawLRU K V) : Bool := c.list.length = 0

/-- `RawLRU::contains` (line 554): `self.map.contains_key(k)`. -/
def contains (c : RawLRU K V) (k : K) : Bool := (lookup c.list k).isSome

/-- `RawLRU::put` (lines 231-284).  Three branches: key present (update value,
move entry to head), cache full (remove the tail entry via its key from the
map, reuse the node for the new pair, report the old pair as `Evicted`), or
room available (`Put`).  In the full branch the code reads the key of
`(*self.tail).prev` and does `self.map.remove(&old_key).unwrap()`; when the
list holds only the sentinels (possible after `resize(0)`) that read hits an
uninitialized sentinel key and the unwrap panics — modelled by `none`. -/
def put (c : RawLRU K V) (k : K) (v : V) : Option (PutResult K V × RawLRU K V) :=
  match lookup c.list k with
  | some old_v =>
    some (.Update old_v, ⟨c.cap, (k, v) :: removeKey c.list k⟩)
  | none =>
    if c.list.length ≥ c.cap then
      match c.list.getLast? with
      | none => none
      | some (old_k, old_v) =>
        some (.Evicted old_k old_v, ⟨c.cap, (k, v) :: c.list.dropLast⟩)
    else
      some (.Put, ⟨c.cap, (k, v) :: c.list⟩)

/-- `RawLRU::get` (lines 304-319): on a hit, detach + attach moves the entry
to the head of the recency list. -/
def get (c : RawLRU K V) (k : K) : Option V × RawLRU K V :=
  match lookup c.list k with
  | some v => (some v, ⟨c.cap, (k, v) :: removeKey c.list k⟩)
  | none => (none, c)

/-- `RawLRU::peek` (lines 440-448): lookup without reordering. -/
def peek (c : RawLRU K V) (k : K) : Option V := lookup c.list k

/-- `RawLRU::get_lru` (lines 339-354): returns the tail entry and moves it to
the head (detach + attach); `None` on an empty cache. -/
def get_lru (c : RawLRU K V) : Option ((K × V) × RawLRU K V) :=
  match c.list.getLast? with
  | none => none
  | some p => some (p, ⟨c.cap, p :: c.list.dropLast⟩)

/-- `RawLRU::peek_lru` (lines 492-505): returns the tail entry, no reordering. -/
def peek_lru (c : RawLRU K V) : Option (K × V) := c.list.getLast?

/-- `RawLRU::remove` (lines 578-596): unlink and drop the entry, firing the
callback with the removed pair (the pair itself is the returned value). -/
def remove (c : RawLRU K V) (k : K) : Option V × RawLRU K V :=
  match lookup c.list k with
  | some v => (some v, ⟨c.cap, removeKey c.list k⟩)
  | none => (none, c)

/-- `RawLRU::remove_last` (lines 919-933): detach the tail entry and remove it
from the map, if any. -/
def remove_last (c : RawLRU K V) : Option ((K × V) × RawLRU K V) :=
  match c.list.getLast? with
  | none => none
  | some p => some (p, ⟨c.cap, c.list.dropLast⟩)

/-- `RawLRU::remove_lru` (lines 617-628): `remove_last` plus the callback on
the removed pair. -/
def remove_lru (c : RawLRU K V) : Option ((K × V) × RawLRU K V) := remove_last c

/-- The `while self.map.len() > cap { self.remove_lru(); evicted += 1 }` loop
of `RawLRU::resize` (lines 709-712).  Returns the remaining list, the eviction
count, and the pairs passed to the callback in the order the callback fired. -/
def resizeLoop : List (K × V) → Nat → List (K × V) × Nat × List (K × V)
  | l, n =>
    if _h : n < l.length then
      match l.getLast? with
      | none => (l, 0, [])
      | some p =>
        let r := resizeLoop l.dropLast n
        (r.1, r.2.1 + 1, p :: r.2.2)
    else (l, 0, [])
termination_by l _ => l.length
decreasing_by
  simp only [List.length_dropLast]
  omega

/-- `RawLRU::resize` (lines 702-717): no-op returning 0 when the capacity is
unchanged, otherwise evict the tail while over the new capacity, then set
`cap`. -/
def resize (c : RawLRU K V) (cap : Nat) : RawLRU K V × Nat × List (K × V) :=
  if cap = c.cap then (c, 0, [])
  else
    let r := resizeLoop c.list cap
    (⟨cap, r.1⟩, r.2.1, r.2.2)

/-- `RawLRU::purge` (lines 737-739): remove the LRU entry until empty. -/
def purge (c : RawLRU K V) : RawLRU K V := ⟨c.cap, []⟩

/-!
Iterator model.  The intrusive chain of a cache holding entries
`e₁ (MRU), …, eₙ (LRU)` is `head sentinel, e₁, …, eₙ, tail sentinel`;
positions are indexed `0 (head), 1, …, n, n+1 (tail)`, with `.next` going to
`i+1` and `.prev` to `i-1`.  `head.next` is position `1` and `tail.prev` is
position `n`, also when `n = 0`.  Reading a sentinel position yields
uninitialized memory, modelled as `none`; positions past the tail sentinel
(reached by following the tail's null `.next`) are likewise `none`.
-/

/-- The entry stored at chain position `i`, `none` at the sentinels and beyond. -/
def nodeAt (entries : List (K × V)) (i : Nat) : Option (K × V) :=
  if 1 ≤ i ∧ i ≤ entries.length then entries[i - 1]? else none

/-- The sequence produced by `len` calls of `Iter::next` (lines 1027-1039)
starting at chain position `i`: read the current node, then follow `.next`. -/
def nextSeq (entries : List (K × V)) : Nat → Nat → List (Option (K × V))
  | _, 0 => []
  | i, len + 1 => nodeAt entries i :: nextSeq entries (i + 1) len

/-- The sequence produced by `len` calls of `Iter::next_back` (lines
1051-1063) starting at chain position `i`: read the node at `end`, then
follow `.prev`. -/
def backSeq (entries : List (K × V)) : Nat → Nat → List (Option (K × V))
  | _, 0 => []
  | i, len + 1 => nodeAt entries i :: backSeq entries (i - 1) len

/-- Full forward traversal of `RawLRU::iter` (lines 814-821):
`ptr = (*self.head).next` (position 1), advancing via `.next`. -/
def iterSeq (c : RawLRU K V) : List (Option (K × V)) :=
  nextSeq c.list 1 c.list.length

/-- Full forward traversal of `RawLRU::reversed_iter` (lines 840-847):
`ptr = (*self.tail).prev` (position `n`), advancing via `.next`. -/
def reversedIterSeq (c : RawLRU K V) : List (Option (K × V)) :=
  nextSeq c.list c.list.length c.list.length

/-- Full traversal of `RawLRU::keys` (lines 758-767): the `Keys` wrapper maps
`Prod.fst` over an `Iter` constructed with `ptr = (*self.tail).prev` —
the same starting position as `reversed_iter`, not as `iter`. -/
def keysSeq (c : RawLRU K V) : List (Option K) :=
  (nextSeq c.list c.list.length c.list.length).map (Option.map Prod.fst)

/-- Full traversal of `RawLRU::reversed_keys` (lines 786-795): identical
construction to `keys` (`ptr = (*self.tail).prev`). -/
def reversedKeysSeq (c : RawLRU K V) : List (Option K) :=
  (nextSeq c.list c.list.length c.list.length).map (Option.map Prod.fst)

/-- Full backward traversal of `RawLRU::iter` via `next_back`:
`end = (*self.tail).prev` (position `n`), advancing via `.prev`. -/
def iterBackSeq (c : RawLRU K V) : List (Option (K × V)) :=
  backSeq c.list c.list.length c.list.length

/-- Modelled from the spec: `RawLRU::put_box` is called by `src/two_queue.rs`
but its definition is not under `src/`.  Per spec §4.4 it re-inserts an owned
entry at the head of the target engine, the engine "enforces its own
independent capacity and silently drops its own tail on overflow, no outer
notification"; like `put`, an entry whose key is already present replaces the
old one at the head. -/
def put_box (c : RawLRU K V) (k : K) (v : V) : RawLRU K V :=
  match lookup c.list k with
  | some _ => ⟨c.cap, (k, v) :: removeKey c.list k⟩
  | none =>
    if c.list.length ≥ c.cap then
      ⟨c.cap, (k, v) :: c.list.dropLast⟩
    else
      ⟨c.cap, (k, v) :: c.list⟩

/-- Modelled from the spec: `RawLRU::remove_lru_in` is called by
`TwoQueueCache::ensure_space` but not defined under `src/`.  It removes and
returns the owned tail entry without firing the notification (spec §4.4: the
demotion is an internal transfer, "no outer notification"). -/
def remove_lru_in (c : RawLRU K V) : Option ((K × V) × RawLRU K V) :=
  match c.list.getLast? with
  | none => none
  | some p => some (p, ⟨c.cap, c.list.dropLast⟩)

/-- Modelled from the spec: `RawLRU::remove_and_return_ent` is called by
`TwoQueueCache::get` but not defined under `src/`.  It detaches the entry for
`k` from the map and list and returns it owned, without firing the
notification (spec §4.4: a read promotion transfers the entry). -/
def remove_and_return_ent (c : RawLRU K V) (k : K) : Option ((K × V) × RawLRU K V) :=
  match lookup c.list k with
  | none => none
  | some v => some ((k, v), ⟨c.cap, removeKey c.list k⟩)

end RawLRU

/-- `DEFAULT_2Q_RECENT_RATIO` of `src/two_queue.rs` (line 6). -/
def DEFAULT_2Q_RECENT_RATIO : ℚ := 1 / 4

/-- `DEFAULT_2Q_GHOST_RATIO` of `src/two_queue.rs` (line 10). -/
def DEFAULT_2Q_GHOST_RATIO : ℚ := 1 / 2

/-- The layered 2Q cache `TwoQueueCache` of `src/two_queue.rs` (lines 21-32):
three single-tier engines plus the total budget and the soft recent quota. -/
structure TwoQueueCache (K V : Type) where
  size : Nat
  recent_size : Nat
  recent : RawLRU K V
  frequent : RawLRU K V
  recent_evict : RawLRU K V
  deriving DecidableEq, Repr

namespace TwoQueueCache

variable {K V : Type} [DecidableEq K]

/-- `TwoQueueCache::with_2q_parameters` (lines 47-77).  Ratios are `ℚ` for
`f64`; `(size as f64 * r).floor() as usize` is `((size : ℚ) * r).floor.toNat`.
The `recent` and `frequent` engines come from `RawLRU::new(size).unwrap()`,
which cannot fail because `size ≠ 0` was just checked; the ghost engine comes
from `RawLRU::new(es)?`, whose error propagates. -/
def with_2q_parameters (K V : Type) [DecidableEq K] (size : Nat) (rr gr : ℚ) :
    Except CacheError (TwoQueueCache K V) :=
  if size = 0 then .error (.InvalidSize size)
  else if rr < 0 ∨ 1 < rr then .error (.InvalidRecentRatio rr)
  else if gr < 0 ∨ 1 < gr then .error (.InvalidGhostRatio gr)
  else
    let rs := (⌊(size : ℚ) * rr⌋).toNat
    let es := (⌊(size : ℚ) * gr⌋).toNat
    match RawLRU.new K V es with
    | .error e => .error e
    | .ok ghost =>
      .ok { size := size, recent_size := rs,
            recent := ⟨size, []⟩, frequent := ⟨size, []⟩, recent_evict := ghost }

/-- `TwoQueueCache::new` (lines 35-37). -/
def new (K V : Type) [DecidableEq K] (size : Nat) : Except CacheError (TwoQueueCache K V) :=
  with_2q_parameters K V size DEFAULT_2Q_RECENT_RATIO DEFAULT_2Q_GHOST_RATIO

/-- `TwoQueueCache::with_recent_ratio` (lines 39-41). -/
def with_recent_ratio (K V : Type) [DecidableEq K] (size : Nat) (rr : ℚ) :
    Except CacheError (TwoQueueCache K V) :=
  with_2q_parameters K V size rr DEFAULT_2Q_GHOST_RATIO

/-- `TwoQueueCache::with_ghost_ratio` (lines 43-45). -/
def with_ghost_ratio (K V : Type) [DecidableEq K] (size : Nat) (gr : ℚ) :
    Except CacheError (TwoQueueCache K V) :=
  with_2q_parameters K V size DEFAULT_2Q_RECENT_RATIO gr

/-- `TwoQueueCache::ensure_space` (lines 207-224).  One eviction at most: if
the combined recent+frequent length is under `size`, do nothing; else demote
the recent tail into the ghost engine when recent is over (or, for a
non-ghost call, at) the soft quota, otherwise drop frequent's tail
(`remove_lru` on an empty engine is a no-op).  The `unreachable` fallback of
the demote branch corresponds to `self.recent.remove_lru_in().unwrap()`,
guarded by `recent_len > 0`. -/
def ensure_space (c : TwoQueueCache K V) (recent_evict : Bool) : TwoQueueCache K V :=
  let recent_len := c.recent.list.length
  let freq_len := c.frequent.list.length
  if recent_len + freq_len < c.size then c
  else if 0 < recent_len ∧
      (c.recent_size < recent_len ∨ (recent_len = c.recent_size ∧ recent_evict = false)) then
    match RawLRU.remove_lru_in c.recent with
    | some (p, r') =>
      { c with recent := r', recent_evict := RawLRU.put_box c.recent_evict p.1 p.2 }
    | none => c
  else
    match RawLRU.remove_lru c.frequent with
    | some (_, f') => { c with frequent := f' }
    | none => c

/-- `TwoQueueCache::put` (lines 134-171).  Four branches: frequent hit
(update in place), recent hit (promote the owned entry, old value kept, into
frequent), ghost hit (`ensure_space(true)`, then transfer the ghost entry
into frequent — the re-lookup `self.recent_evict.map.remove(&key_ref).unwrap()`
panics, modelled `none`, if `ensure_space` just dropped `k` from the ghost
tier), absent (`ensure_space(false)`, then insert into recent). -/
def put (c : TwoQueueCache K V) (k : K) (v : V) : Option (TwoQueueCache K V) :=
  match lookup c.frequent.list k with
  | some _ => (RawLRU.put c.frequent k v).map (fun r => { c with frequent := r.2 })
  | none =>
  match lookup c.recent.list k with
  | some v0 =>
    some { c with recent := ⟨c.recent.cap, removeKey c.recent.list k⟩,
                  frequent := RawLRU.put_box c.frequent k v0 }
  | none =>
  match lookup c.recent_evict.list k with
  | some _ =>
    let c1 := ensure_space c true
    match lookup c1.recent_evict.list k with
    | some v0 =>
      some { c1 with recent_evict := ⟨c1.recent_evict.cap, removeKey c1.recent_evict.list k⟩,
                     frequent := RawLRU.put_box c1.frequent k v0 }
    | none => none
  | none =>
    let c1 := ensure_space c false
    (RawLRU.put c1.recent k v).map (fun r => { c1 with recent := r.2 })

/-- `TwoQueueCache::get` (lines 173-184): frequent first (recency bump),
else transfer a recent hit into frequent and peek it there; the ghost tier is
never consulted. -/
def get (c : TwoQueueCache K V) (k : K) : Option V × TwoQueueCache K V :=
  match RawLRU.get c.frequent k with
  | (some v, f') => (some v, { c with frequent := f' })
  | (none, _) =>
    match RawLRU.remove_and_return_ent c.recent k with
    | none => (none, c)
    | some (p, r') =>
      let f' := RawLRU.put_box c.frequent p.1 p.2
      (RawLRU.peek f' k, { c with recent := r', frequent := f' })

/-- `TwoQueueCache::remove` (lines 226-232): frequent, then recent, then
ghost; first hit wins. -/
def remove (c : TwoQueueCache K V) (k : K) : Option V × TwoQueueCache K V :=
  match RawLRU.remove c.frequent k with
  | (some v, f') => (some v, { c with frequent := f' })
  | (none, _) =>
    match RawLRU.remove c.recent k with
    | (some v, r') => (some v, { c with recent := r' })
    | (none, _) =>
      match RawLRU.remove c.recent_evict k with
      | (some v, g') => (some v, { c with recent_evict := g' })
      | (none, _) => (none, c)

end TwoQueueCache

/-- A public operation on the layered cache (for arbitrary interleavings). -/
inductive Op (K V : Type) where
  | put : K → V → Op K V
  | get : K → Op K V
  | remove : K → Op K V

/-- One public operation on the layered cache; `none` models a panic. -/
def step {K V : Type} [DecidableEq K] (c : TwoQueueCache K V) : Op K V → Option (TwoQueueCache K V)
  | .put k v => TwoQueueCache.put c k v
  | .get k => some (TwoQueueCache.get c k).2
  | .remove k => some (TwoQueueCache.remove c k).2

/-- A sequence of public operations on the layered cache. -/
def run {K V : Type} [DecidableEq K] (c : TwoQueueCache K V) : List (Op K V) →
    Option (TwoQueueCache K V)
  | [] => some c
  | op :: ops => (step c op).bind (fun c' => run c' ops)

/-- A sequence of put operations on a single-tier engine (final state only). -/
def runPuts {K V : Type} [DecidableEq K] (c : RawLRU K V) : List (K × V) → Option (RawLRU K V)
  | [] => some c
  | p :: rest => (RawLRU.put c p.1 p.2).bind (fun r => runPuts r.2 rest)

/-- A sequence of put operations on a single-tier engine, collecting each
call's `PutResult` in order together with the final state. -/
def putsResults {K V : Type} [DecidableEq K] (c : RawLRU K V) :
    List (K × V) → Option (List (PutResult K V) × RawLRU K V)
  | [] => some ([], c)
  | p :: rest =>
    (RawLRU.put c p.1 p.2).bind
      (fun r => (putsResults r.2 rest).map (fun q => (r.1 :: q.1, q.2)))

/-! Basic lemmas about the association-list primitives. -/

theorem lookup_eq_none_iff {K V : Type} [DecidableEq K] (l : List (K × V)) (k : K) :
    lookup l k = none ↔ ∀ p ∈ l, p.1 ≠ k := by
  induction l with
  | nil => simp [lookup]
  | cons p rest ih =>
    obtain ⟨k', v'⟩ := p
    by_cases hk : k' = k <;> simp [lookup, hk, ih]

theorem removeKey_length {K V : Type} [DecidableEq K] (l : List (K × V)) (k : K) (v : V)
    (h : lookup l k = some v) : (removeKey l k).length + 1 = l.length := by
  induction l with
  | nil => simp [lookup] at h
  | cons p rest ih =>
    obtain ⟨k', v'⟩ := p
    by_cases hk : k' = k
    · simp [removeKey, hk]
    · simp only [lookup, if_neg hk] at h
      simp [removeKey, hk, ih h]

theorem lookup_length_pos {K V : Type} [DecidableEq K] {l : List (K × V)} {k : K} {v : V}
    (h : lookup l k = some v) : 0 < l.length := by
  cases l with
  | nil => simp [lookup] at h
  | cons p rest => simp

theorem lookup_dropLast_eq_none {K V : Type} [DecidableEq K] {l : List (K × V)} {k : K}
    (h : lookup l k = none) : lookup l.dropLast k = none := by
  rw [lookup_eq_none_iff] at h ⊢
  intro p hp
  exact h p (List.dropLast_subset l hp)

/-- Closed form for the resize eviction loop: it keeps the `n` most recent
entries, evicts the rest, and fires the callback on the evicted entries in
LRU-to-MRU order. -/
theorem resizeLoop_spec {K V : Type} [DecidableEq K] (l : List (K × V)) (n : Nat) :
    RawLRU.resizeLoop l n = (l.take n, l.length - n, (l.drop n).reverse) := by
  induction l using List.reverseRecOn with
  | nil =>
    rw [RawLRU.resizeLoop]
    simp
  | append_singleton xs x ih =>
    rw [RawLRU.resizeLoop]
    by_cases h : n < (xs ++ [x]).length
    · have hle : n ≤ xs.length := by
        simp only [List.length_append, List.length_singleton] at h
        omega
      rw [dif_pos h]
      simp only [List.getLast?_concat, List.dropLast_concat, ih,
        List.take_append_of_le_length hle, List.drop_append_of_le_length hle,
        List.length_append, List.length_singleton, List.reverse_append,
        List.reverse_cons, List.reverse_nil, List.nil_append, List.singleton_append,
        Prod.mk.injEq]
      refine ⟨trivial, by omega, trivial⟩
    · have hge' : (xs ++ [x]).length ≤ n := by omega
      rw [dif_neg h, List.take_of_length_le hge', List.drop_eq_nil_of_le hge']
      simp only [List.reverse_nil, Prod.mk.injEq]
      refine ⟨trivial, by omega, trivial⟩

/-- C10: on any engine with `cap() ≥ 1`, `put` cannot fail its internal
unwrap — in the eviction branch (`len() ≥ cap()`) the recency list is
non-empty and the tail key resolves in the map.  The precondition is not
maintained by `resize`: `resize(0)` is accepted and leaves `cap() == 0` with
the engine emptied, after which `put` takes the eviction branch with only the
sentinel nodes in the list and its tail-key lookup/unwrap fails (modelled by
`put` returning `none`): concretely, `new(1)`, `put(1,1)`, `resize(0)`, then
`put(2,2)` panics. -/
theorem put_unwrap_safety {K V : Type} [DecidableEq K] :
    (∀ (c : RawLRU K V) (k : K) (v : V), 1 ≤ c.cap → (RawLRU.put c k v).isSome = true) ∧
    ((RawLRU.new Nat Nat 1).toOption.bind (fun c => RawLRU.put c 1 1)).map
        (fun r => RawLRU.put (RawLRU.resize r.2 0).1 2 2) = some none := by
  constructor
  · intro c k v hcap
    unfold RawLRU.put
    cases hl : lookup c.list k with
    | some v0 => simp
    | none =>
      by_cases hlen : c.list.length ≥ c.cap
      · have hne : c.list ≠ [] := by
          intro hnil
          rw [hnil] at hlen
          simp at hlen
          omega
        cases hgl : c.list.getLast? with
        | none => exact absurd (List.getLast?_eq_none_iff.mp hgl) hne
        | some p => simp [hlen, hgl]
      · simp [hlen]
  · simp [RawLRU.new, RawLRU.check_size, RawLRU.put, RawLRU.resize, resizeLoop_spec, lookup,
      Except.toOption, Except.map]

/-- C10 witness: the safety half of `put_unwrap_safety` applied at a concrete
full engine of capacity 1. -/
theorem put_unwrap_safety_witness :
    (RawLRU.put (⟨1, [(5, 5)]⟩ : RawLRU Nat Nat) 6 6).isSome = true :=
  (put_unwrap_safety (K := Nat) (V := Nat)).1 ⟨1, [(5, 5)]⟩ 6 6 (by decide)

/-- C5: `put(k, v)` on an engine where `k` is present with value `old_v`
returns `Update(old_v)` (never `Evicted`, even at full capacity), leaves
`len()` unchanged, and a subsequent `get(k)` returns `Some(v)`. -/
theorem put_update_existing {K V : Type} [DecidableEq K]
    (c : RawLRU K V) (k : K) (v old_v : V) (h : lookup c.list k = some old_v) :
    RawLRU.put c k v = some (.Update old_v, ⟨c.cap, (k, v) :: removeKey c.list k⟩) ∧
    (RawLRU.len ⟨c.cap, (k, v) :: removeKey c.list k⟩ = RawLRU.len c) ∧
    (RawLRU.get (⟨c.cap, (k, v) :: removeKey c.list k⟩ : RawLRU K V) k).1 = some v := by
  refine ⟨by simp [RawLRU.put, h], ?_, ?_⟩
  · have := removeKey_length c.list k old_v h
    simp only [RawLRU.len, List.length_cons]
    omega
  · simp [RawLRU.get, lookup]

/-- C5 witness: updating the present key `1` on a full capacity-1 engine. -/
theorem put_update_existing_witness :
    RawLRU.put (⟨1, [(1, 10)]⟩ : RawLRU Nat Nat) 1 20 =
      some (.Update 10, ⟨1, [(1, 20)]⟩) ∧
    (RawLRU.len (⟨1, [(1, 20)]⟩ : RawLRU Nat Nat) = RawLRU.len (⟨1, [(1, 10)]⟩ : RawLRU Nat Nat)) ∧
    (RawLRU.get (⟨1, [(1, 20)]⟩ : RawLRU Nat Nat) 1).1 = some 20 := by
  have h := put_update_existing (⟨1, [(1, 10)]⟩ : RawLRU Nat Nat) 1 20 10 (by decide)
  simpa [removeKey] using h

/-- C7: on a non-empty engine `get_lru()` returns the least-recently-used
pair (the tail of the recency list) and moves it to the most-recently-used
position, while `peek_lru()` returns the same pair and leaves the list
unchanged (it does not produce a new state at all); both return `None`
exactly when the engine is empty. -/
theorem get_lru_peek_lru_spec {K V : Type} [DecidableEq K] (c : RawLRU K V) :
    (∀ p : K × V, c.list.getLast? = some p →
      RawLRU.get_lru c = some (p, ⟨c.cap, p :: c.list.dropLast⟩) ∧
      RawLRU.peek_lru c = some p) ∧
    (RawLRU.get_lru c = none ↔ c.list = []) ∧
    (RawLRU.peek_lru c = none ↔ c.list = []) := by
  refine ⟨fun p hp => ⟨by simp [RawLRU.get_lru, hp], by simp [RawLRU.peek_lru, hp]⟩, ?_, ?_⟩
  · unfold RawLRU.get_lru
    cases hgl : c.list.getLast? with
    | none => simpa using List.getLast?_eq_none_iff.mp hgl
    | some p =>
      simp only [reduceCtorEq, false_iff]
      intro hnil
      rw [hnil] at hgl
      simp at hgl
  · unfold RawLRU.peek_lru
    exact List.getLast?_eq_none_iff

/-- C6: `resize(new_cap)` keeps the `new_cap` most-recently-used entries and
sets `cap()` to `new_cap`; it returns `len() - new_cap` evictions whenever
`new_cap < len()` (and `0` otherwise, in particular when `new_cap == cap` it
is a no-op returning `0`), removing exactly the least-recently-used entries
and firing the eviction notification once per evicted entry, in LRU-to-MRU
order.  Stated for any reachable state (`len() ≤ cap()`). -/
theorem resize_spec {K V : Type} [DecidableEq K] (c : RawLRU K V) (n : Nat)
    (h : c.list.length ≤ c.cap) :
    RawLRU.resize c n =
      (⟨n, c.list.take n⟩, c.list.length - n, (c.list.drop n).reverse) ∧
    ((RawLRU.resize c n).2.2).length = (RawLRU.resize c n).2.1 := by
  have hmain : RawLRU.resize c n =
      (⟨n, c.list.take n⟩, c.list.length - n, (c.list.drop n).reverse) := by
    unfold RawLRU.resize
    by_cases hc : n = c.cap
    · subst hc
      have h1 : c.list.take c.cap = c.list := List.take_of_length_le h
      have h2 : c.list.drop c.cap = [] := List.drop_eq_nil_of_le h
      have h3 : c.list.length - c.cap = 0 := by omega
      simp [h1, h2, h3]
    · rw [if_neg hc]
      simp only [resizeLoop_spec]
  refine ⟨hmain, ?_⟩
  rw [hmain]
  simp

/-- C6 witness: `resize_spec` applied to a three-entry engine shrunk to
capacity 1: two evictions, LRU first, and only the MRU entry kept. -/
theorem resize_spec_witness :
    RawLRU.resize (⟨3, [(3, 30), (2, 20), (1, 10)]⟩ : RawLRU Nat Nat) 1 =
      (⟨1, [(3, 30)]⟩, 2, [(1, 10), (2, 20)]) := by
  have h := (resize_spec (⟨3, [(3, 30), (2, 20), (1, 10)]⟩ : RawLRU Nat Nat) 1 (by decide)).1
  simpa using h

/-- Helper for C4: a single `put` on a state satisfying the capacity bound
with positive capacity succeeds and preserves the bound and the capacity. -/
theorem put_preserve {K V : Type} [DecidableEq K] (c : RawLRU K V) (k : K) (v : V)
    (hlen : c.list.length ≤ c.cap) (hcap : 0 < c.cap) :
    ∃ r, RawLRU.put c k v = some r ∧ r.2.list.length ≤ c.cap ∧ r.2.cap = c.cap := by
  cases hl : lookup c.list k with
  | some v0 =>
    refine ⟨(.Update v0, ⟨c.cap, (k, v) :: removeKey c.list k⟩), by simp [RawLRU.put, hl], ?_, rfl⟩
    have := removeKey_length c.list k v0 hl
    simp only [List.length_cons]
    omega
  | none =>
    by_cases hfull : c.list.length ≥ c.cap
    · have hne : c.list ≠ [] := by
        intro hnil
        rw [hnil] at hfull
        simp at hfull
        omega
      cases hgl : c.list.getLast? with
      | none => exact absurd (List.getLast?_eq_none_iff.mp hgl) hne
      | some p =>
        obtain ⟨pk, pv⟩ := p
        refine ⟨(.Evicted pk pv, ⟨c.cap, (k, v) :: c.list.dropLast⟩),
          by simp [RawLRU.put, hl, hfull, hgl], ?_, rfl⟩
        have := c.list.length_dropLast
        simp only [List.length_cons]
        omega
    · refine ⟨(.Put, ⟨c.cap, (k, v) :: c.list⟩), by simp [RawLRU.put, hl, hfull], ?_, rfl⟩
      simp only [List.length_cons]
      omega

/-- Helper for C4: every put sequence from a bounded state succeeds and stays
bounded. -/
theorem runPuts_le_cap_aux {K V : Type} [DecidableEq K] (ops : List (K × V)) :
    ∀ c : RawLRU K V, c.list.length ≤ c.cap → 0 < c.cap →
      ∃ c', runPuts c ops = some c' ∧ c'.list.length ≤ c'.cap ∧ c'.cap = c.cap := by
  induction ops with
  | nil => exact fun c h _ => ⟨c, rfl, h, rfl⟩
  | cons p rest ih =>
    intro c h hc
    obtain ⟨r, hput, hlen, hcap⟩ := put_preserve c p.1 p.2 h hc
    obtain ⟨c', hrun, hlen', hcap'⟩ := ih r.2 (by rw [hcap]; exact hlen) (by rw [hcap]; exact hc)
    exact ⟨c', by simp [runPuts, hput, hrun], hlen', by rw [hcap', hcap]⟩

/-- C4: for an engine constructed with capacity `cap > 0`, every sequence of
`put` operations completes and leaves `len() ≤ cap` — since every prefix of a
sequence is itself a sequence, the bound holds after every call. -/
theorem put_len_le_cap {K V : Type} [DecidableEq K] (cap : Nat) (c₀ : RawLRU K V)
    (h : RawLRU.new K V cap = .ok c₀) (ops : List (K × V)) :
    ∃ c', runPuts c₀ ops = some c' ∧ c'.list.length ≤ cap := by
  have hc : cap ≠ 0 ∧ c₀ = ⟨cap, []⟩ := by
    unfold RawLRU.new RawLRU.check_size at h
    by_cases h0 : cap = 0
    · rw [if_pos h0] at h
      simp [Except.map] at h
    · rw [if_neg h0] at h
      simp [Except.map] at h
      exact ⟨h0, h.symm⟩
  obtain ⟨h0, hc0⟩ := hc
  subst hc0
  obtain ⟨c', hrun, hlen, hcap⟩ :=
    runPuts_le_cap_aux ops (⟨cap, []⟩ : RawLRU K V) (by simp)
      (by simpa using Nat.pos_of_ne_zero h0)
  refine ⟨c', hrun, ?_⟩
  have hc' : c'.cap = cap := by simpa using hcap
  omega

/-- C4 witness: `put_len_le_cap` on a capacity-2 engine with three puts. -/
theorem put_len_le_cap_witness :
    ∃ c', runPuts (⟨2, []⟩ : RawLRU Nat Nat) [(1, 1), (2, 2), (3, 3)] = some c' ∧
      c'.list.length ≤ 2 :=
  put_len_le_cap 2 (⟨2, []⟩ : RawLRU Nat Nat) rfl [(1, 1), (2, 2), (3, 3)]

/-- C7 witness: `get_lru_peek_lru_spec` applied to a concrete two-entry
engine, exhibiting the promotion of the tail pair. -/
theorem get_lru_peek_lru_spec_witness :
    RawLRU.get_lru (⟨2, [(2, 20), (1, 10)]⟩ : RawLRU Nat Nat) =
      some ((1, 10), ⟨2, [(1, 10), (2, 20)]⟩) ∧
    RawLRU.peek_lru (⟨2, [(2, 20), (1, 10)]⟩ : RawLRU Nat Nat) = some (1, 10) := by
  have h := (get_lru_peek_lru_spec (⟨2, [(2, 20), (1, 10)]⟩ : RawLRU Nat Nat)).1 (1, 10) (by decide)
  simpa using h

/-- Helper for C3: a put of an absent key into a non-full engine. -/
theorem put_fresh {K V : Type} [DecidableEq K] (c : RawLRU K V) (k : K) (v : V)
    (hl : lookup c.list k = none) (hlen : c.list.length < c.cap) :
    RawLRU.put c k v = some (.Put, ⟨c.cap, (k, v) :: c.list⟩) := by
  have hfull : ¬ c.list.length ≥ c.cap := by omega
  simp [RawLRU.put, hl, hfull]

/-- Helper for C3: putting a list of distinct fresh keys that fits in the
remaining room returns `Put` every time and prepends the keys in reverse. -/
theorem putsResults_fresh {K V : Type} [DecidableEq K] (kvs : List (K × V)) :
    ∀ c : RawLRU K V, (kvs.map Prod.fst).Nodup →
      (∀ p ∈ kvs, lookup c.list p.1 = none) →
      c.list.length + kvs.length ≤ c.cap →
      putsResults c kvs =
        some (List.replicate kvs.length .Put, ⟨c.cap, kvs.reverse ++ c.list⟩) := by
  induction kvs with
  | nil => intro c _ _ _; simp [putsResults]
  | cons p rest ih =>
    obtain ⟨k, v⟩ := p
    intro c hnodup hfresh hlen
    have hp : lookup c.list k = none := hfresh (k, v) (List.mem_cons_self _ _)
    have hput := put_fresh c k v hp (by simp at hlen; omega)
    have hknotin : k ∉ rest.map Prod.fst := by
      simp only [List.map_cons, List.nodup_cons] at hnodup
      exact hnodup.1
    have hfresh' : ∀ q ∈ rest, lookup ((k, v) :: c.list) q.1 = none := by
      intro q hq
      have hqk : k ≠ q.1 := by
        intro hkq
        exact hknotin (hkq ▸ List.mem_map_of_mem Prod.fst hq)
      simp only [lookup, if_neg hqk]
      exact hfresh q (List.mem_cons_of_mem _ hq)
    have hnodup' : (rest.map Prod.fst).Nodup := by
      simp only [List.map_cons, List.nodup_cons] at hnodup
      exact hnodup.2
    have ihres := ih ⟨c.cap, (k, v) :: c.list⟩ hnodup' hfresh' (by simp at hlen ⊢; omega)
    simp [putsResults, hput, ihres, List.replicate_succ]

/-- Helper for C3: splitting a put sequence. -/
theorem putsResults_append {K V : Type} [DecidableEq K] (l₁ l₂ : List (K × V)) :
    ∀ c : RawLRU K V,
      putsResults c (l₁ ++ l₂) = (putsResults c l₁).bind
        (fun r => (putsResults r.2 l₂).map (fun q => (r.1 ++ q.1, q.2))) := by
  induction l₁ with
  | nil =>
    intro c
    simp only [List.nil_append, putsResults, Option.bind_eq_bind, Option.some_bind]
    cases putsResults c l₂ with
    | none => simp
    | some q => simp
  | cons p rest ih =>
    intro c
    simp only [List.cons_append, putsResults]
    cases RawLRU.put c p.1 p.2 with
    | none => simp
    | some r =>
      simp only [Option.some_bind, List.append_eq]
      rw [ih r.2]
      cases putsResults r.2 rest with
      | none => simp
      | some q =>
        simp only [Option.map_some', Option.some_bind]
        cases putsResults q.2 l₂ with
        | none => simp
        | some w => simp

/-- C3: FIFO under pressure — inserting `c+1` distinct keys into a fresh
capacity-`c` engine with no intervening reads returns `Put` for the first
`c` puts and `Evicted{key, value}` carrying exactly the first-inserted pair
on the `(c+1)`-th; concretely at capacity 2, `put("apple","red")`,
`put("banana","yellow")` return `Put`, `put("pear","green")` returns
`Evicted{"apple","red"}`, then `get("apple")` is `None` and `get("banana")`
is `Some("yellow")`. -/
theorem put_fifo_eviction {K V : Type} [DecidableEq K] :
    (∀ (cap : Nat) (k0 : K) (v0 : V) (mid : List (K × V)) (kl : K) (vl : V),
      mid.length + 1 = cap →
      ((((k0, v0) :: mid) ++ [(kl, vl)]).map Prod.fst).Nodup →
      ∃ st, putsResults (⟨cap, []⟩ : RawLRU K V) (((k0, v0) :: mid) ++ [(kl, vl)]) =
        some (List.replicate cap .Put ++ [.Evicted k0 v0], st)) ∧
    (putsResults (⟨2, []⟩ : RawLRU String String)
        [("apple", "red"), ("banana", "yellow"), ("pear", "green")] =
      some ([.Put, .Put, .Evicted "apple" "red"],
        ⟨2, [("pear", "green"), ("banana", "yellow")]⟩) ∧
     (RawLRU.get (⟨2, [("pear", "green"), ("banana", "yellow")]⟩ : RawLRU String String)
        "apple").1 = none ∧
     (RawLRU.get (⟨2, [("pear", "green"), ("banana", "yellow")]⟩ : RawLRU String String)
        "banana").1 = some "yellow") := by
  constructor
  · intro cap k0 v0 mid kl vl hlen hnodup
    subst hlen
    have hnodup' : (((k0, v0) :: mid).map Prod.fst ++ [kl]).Nodup := by
      simpa using hnodup
    rw [List.nodup_append] at hnodup'
    obtain ⟨hfrontnodup, _, hdisj⟩ := hnodup'
    have hklnotin : kl ∉ ((k0, v0) :: mid).map Prod.fst := by
      intro hmem
      exact hdisj hmem (List.mem_singleton_self kl)
    have hfreshkeys : ∀ p ∈ (k0, v0) :: mid,
        lookup ((⟨mid.length + 1, []⟩ : RawLRU K V).list) p.1 = none := by
      intro p _
      simp [lookup]
    have hfrontlen : (⟨mid.length + 1, []⟩ : RawLRU K V).list.length +
        ((k0, v0) :: mid).length ≤ (⟨mid.length + 1, []⟩ : RawLRU K V).cap := by
      simp
    rw [putsResults_append]
    rw [putsResults_fresh ((k0, v0) :: mid) (⟨mid.length + 1, []⟩ : RawLRU K V)
      hfrontnodup hfreshkeys hfrontlen]
    simp only [Option.some_bind, List.append_nil]
    have hlookup : lookup (mid.reverse ++ [(k0, v0)]) kl = none := by
      rw [lookup_eq_none_iff]
      intro p hp hpk
      refine hklnotin (hpk ▸ List.mem_map_of_mem Prod.fst ?_)
      rw [← List.reverse_cons] at hp
      exact List.mem_reverse.mp hp
    have hgl : (mid.reverse ++ [(k0, v0)]).getLast? = some (k0, v0) :=
      List.getLast?_concat _
    have hif : mid.length + 1 ≤ mid.length + 1 := le_refl _
    have hput : RawLRU.put (⟨mid.length + 1, mid.reverse ++ [(k0, v0)]⟩ : RawLRU K V) kl vl =
        some (.Evicted k0 v0, ⟨mid.length + 1, (kl, vl) :: mid.reverse⟩) := by
      simp [RawLRU.put, hlookup, hgl, hif]
    refine ⟨⟨mid.length + 1, (kl, vl) :: mid.reverse⟩, ?_⟩
    simp [putsResults, hput, List.replicate_succ]
  · refine ⟨by decide, by decide, by decide⟩

/-- C3 witness: `put_fifo_eviction` at capacity 2 with keys 1, 2, 3: the
third put evicts the pair inserted first. -/
theorem put_fifo_eviction_witness :
    ∃ st, putsResults (⟨2, []⟩ : RawLRU Nat Nat) (((1, 10) :: [(2, 20)]) ++ [(3, 30)]) =
      some (List.replicate 2 .Put ++ [.Evicted 1 10], st) :=
  (put_fifo_eviction (K := Nat) (V := Nat)).1 2 1 10 [(2, 20)] 3 30 (by decide) (by decide)

/-- Helper for C8: reading the chain forward from the position after a
prefix of length `n` yields exactly the suffix entries. -/
theorem nextSeq_after {K V : Type} [DecidableEq K] (l2 : List (K × V)) :
    ∀ l1 : List (K × V), RawLRU.nextSeq (l1 ++ l2) (l1.length + 1) l2.length =
      l2.map some := by
  induction l2 with
  | nil => intro l1; simp [RawLRU.nextSeq]
  | cons x rest ih =>
    intro l1
    have hnode : RawLRU.nodeAt (l1 ++ x :: rest) (l1.length + 1) = some x := by
      unfold RawLRU.nodeAt
      rw [if_pos (by refine ⟨by omega, by simp⟩)]
      rw [Nat.add_sub_cancel, List.getElem?_append_right (le_refl _)]
      simp
    have hrec := ih (l1 ++ [x])
    rw [List.append_assoc, List.singleton_append, List.length_append,
      List.length_singleton] at hrec
    simp only [List.length_cons, RawLRU.nextSeq, hnode, List.map_cons]
    rw [show l1.length + 1 + 1 = l1.length + 1 + 1 from rfl]
    exact congrArg _ hrec

/-- Helper for C8: the forward traversal of `iter` yields exactly the live
entries, most-recently-used first. -/
theorem iterSeq_eq {K V : Type} [DecidableEq K] (c : RawLRU K V) :
    RawLRU.iterSeq c = c.list.map some := by
  have := nextSeq_after c.list ([] : List (K × V))
  simpa [RawLRU.iterSeq] using this

/-- C8: iterator directions at the failing input (a fresh capacity-3 engine
after `put("a",1)` then `put("b",2)`).  The forward traversal of `iter` does
yield exactly the live entries MRU-first (first conjunct, in general), and
after a successful `get(k)` the next forward `iter` yields `k` first; but
`keys`, `reversed_keys` and `reversed_iter` are all constructed with
`ptr = (*self.tail).prev` while `Iter::next` follows `.next`, so from the
second element on they read the tail sentinel (uninitialized memory,
modelled `none`) instead of the documented MRU-first / LRU-first sequences
(`[some "b", some "a"]` resp. `[some ("a",1), some ("b",2)]`). -/
theorem iter_direction_bug :
    (∀ (c : RawLRU String Nat), RawLRU.iterSeq c = c.list.map some) ∧
    runPuts (⟨3, []⟩ : RawLRU String Nat) [("a", 1), ("b", 2)] =
      some ⟨3, [("b", 2), ("a", 1)]⟩ ∧
    RawLRU.iterSeq (⟨3, [("b", 2), ("a", 1)]⟩ : RawLRU String Nat) =
      [some ("b", 2), some ("a", 1)] ∧
    RawLRU.keysSeq (⟨3, [("b", 2), ("a", 1)]⟩ : RawLRU String Nat) =
      [some "a", none] ∧
    RawLRU.reversedIterSeq (⟨3, [("b", 2), ("a", 1)]⟩ : RawLRU String Nat) =
      [some ("a", 1), none] ∧
    RawLRU.reversedKeysSeq (⟨3, [("b", 2), ("a", 1)]⟩ : RawLRU String Nat) =
      [some "a", none] ∧
    RawLRU.iterBackSeq (⟨3, [("b", 2), ("a", 1)]⟩ : RawLRU String Nat) =
      [some ("a", 1), some ("b", 2)] ∧
    (RawLRU.get (⟨3, [("b", 2), ("a", 1)]⟩ : RawLRU String Nat) "a").2.list =
      [("a", 1), ("b", 2)] ∧
    RawLRU.iterSeq (⟨3, [("a", 1), ("b", 2)]⟩ : RawLRU String Nat) =
      [some ("a", 1), some ("b", 2)] := by
  refine ⟨iterSeq_eq, ?_, ?_, ?_, ?_, ?_, ?_, ?_, ?_⟩ <;> decide

/-- Combined occupancy of the `recent` and `frequent` tiers. -/
def sumLen {K V : Type} (c : TwoQueueCache K V) : Nat :=
  c.recent.list.length + c.frequent.list.length

/-- Well-formedness of a layered cache reachable from a constructor with
`recent_ratio < 1.0`: the `recent` and `frequent` engines have capacity
`size`, the soft quota is strictly under `size`, and the combined occupancy
is within budget. -/
def WF {K V : Type} (c : TwoQueueCache K V) : Prop :=
  c.recent.cap = c.size ∧ c.frequent.cap = c.size ∧
  c.recent_size < c.size ∧ sumLen c ≤ c.size

/-- Helper for C1: `ensure_space` preserves the static fields, leaves room
for one insertion, and only ever drops the tail of `recent` or `frequent`. -/
theorem ensure_space_facts {K V : Type} [DecidableEq K] (c : TwoQueueCache K V) (b : Bool)
    (hWF : WF c) :
    (TwoQueueCache.ensure_space c b).size = c.size ∧
    (TwoQueueCache.ensure_space c b).recent_size = c.recent_size ∧
    (TwoQueueCache.ensure_space c b).recent.cap = c.recent.cap ∧
    (TwoQueueCache.ensure_space c b).frequent.cap = c.frequent.cap ∧
    sumLen (TwoQueueCache.ensure_space c b) + 1 ≤ c.size ∧
    ((TwoQueueCache.ensure_space c b).recent.list = c.recent.list ∨
      (TwoQueueCache.ensure_space c b).recent.list = c.recent.list.dropLast) ∧
    ((TwoQueueCache.ensure_space c b).frequent.list = c.frequent.list ∨
      (TwoQueueCache.ensure_space c b).frequent.list = c.frequent.list.dropLast) := by
  obtain ⟨hrc, hfc, hrs, hsum⟩ := hWF
  unfold TwoQueueCache.ensure_space
  by_cases h1 : c.recent.list.length + c.frequent.list.length < c.size
  · rw [if_pos h1]
    refine ⟨rfl, rfl, rfl, rfl, by unfold sumLen; omega, Or.inl rfl, Or.inl rfl⟩
  · rw [if_neg h1]
    have hsum' : c.recent.list.length + c.frequent.list.length = c.size := by
      unfold sumLen at hsum
      omega
    by_cases h2 : 0 < c.recent.list.length ∧
        (c.recent_size < c.recent.list.length ∨
          (c.recent.list.length = c.recent_size ∧ b = false))
    · rw [if_pos h2]
      have hne : c.recent.list ≠ [] := by
        intro hnil
        rw [hnil] at h2
        simp at h2
      cases hgl : c.recent.list.getLast? with
      | none => exact absurd (List.getLast?_eq_none_iff.mp hgl) hne
      | some p =>
        simp only [RawLRU.remove_lru_in, hgl]
        refine ⟨trivial, trivial, trivial, trivial, ?_, Or.inr trivial, Or.inl trivial⟩
        unfold sumLen
        simp only [List.length_dropLast]
        omega
    · rw [if_neg h2]
      push_neg at h2
      cases hgl : c.frequent.list.getLast? with
      | none =>
        exfalso
        have hfl : c.frequent.list.length = 0 := by
          rw [List.getLast?_eq_none_iff.mp hgl]
          rfl
        have hrl : 0 < c.recent.list.length := by omega
        have := h2 hrl
        omega
      | some p =>
        have hfl : c.frequent.list ≠ [] := by
          intro hnil
          rw [hnil] at hgl
          simp at hgl
        have hflpos : 0 < c.frequent.list.length := List.length_pos.mpr hfl
        simp only [RawLRU.remove_lru, RawLRU.remove_last, hgl]
        refine ⟨trivial, trivial, trivial, trivial, ?_, Or.inl trivial, Or.inr trivial⟩
        unfold sumLen
        simp only [List.length_dropLast]
        omega


/-- Helper for C1: `put_box` of an absent key into a non-full engine just
attaches the entry at the head. -/
theorem put_box_attach {K V : Type} [DecidableEq K] (c : RawLRU K V) (k : K) (v : V)
    (hl : lookup c.list k = none) (hlen : c.list.length < c.cap) :
    RawLRU.put_box c k v = ⟨c.cap, (k, v) :: c.list⟩ := by
  have hfull : ¬ c.list.length ≥ c.cap := by omega
  simp [RawLRU.put_box, hl, hfull]

/-- Helper for C1: `TwoQueueCache::put` preserves well-formedness and the
budget whenever it completes. -/
theorem put2q_WF {K V : Type} [DecidableEq K] (c : TwoQueueCache K V) (k : K) (v : V)
    (hWF : WF c) (c' : TwoQueueCache K V) (h : TwoQueueCache.put c k v = some c') :
    WF c' ∧ c'.size = c.size := by
  obtain ⟨hrc, hfc, hrs, hsum⟩ := hWF
  cases hf : lookup c.frequent.list k with
  | some v0 =>
    have hput : RawLRU.put c.frequent k v =
        some (.Update v0, ⟨c.frequent.cap, (k, v) :: removeKey c.frequent.list k⟩) := by
      simp [RawLRU.put, hf]
    have hstep : TwoQueueCache.put c k v =
        some { c with frequent := ⟨c.frequent.cap, (k, v) :: removeKey c.frequent.list k⟩ } := by
      simp [TwoQueueCache.put, hf, hput]
    rw [hstep] at h
    obtain rfl : _ = c' := Option.some.inj h
    have hrem := removeKey_length c.frequent.list k v0 hf
    refine ⟨⟨hrc, hfc, hrs, ?_⟩, rfl⟩
    unfold sumLen at hsum ⊢
    simp only [List.length_cons]
    omega
  | none =>
    cases hr : lookup c.recent.list k with
    | some v0 =>
      have hrlpos := lookup_length_pos hr
      have hflcap : c.frequent.list.length < c.frequent.cap := by
        unfold sumLen at hsum
        omega
      have hbox := put_box_attach c.frequent k v0 hf hflcap
      have hstep : TwoQueueCache.put c k v =
          some { c with recent := ⟨c.recent.cap, removeKey c.recent.list k⟩,
                        frequent := ⟨c.frequent.cap, (k, v0) :: c.frequent.list⟩ } := by
        simp [TwoQueueCache.put, hf, hr, hbox]
      rw [hstep] at h
      obtain rfl : _ = c' := Option.some.inj h
      have hrem := removeKey_length c.recent.list k v0 hr
      refine ⟨⟨hrc, hfc, hrs, ?_⟩, rfl⟩
      unfold sumLen at hsum ⊢
      simp only [List.length_cons]
      omega
    | none =>
      cases hg : lookup c.recent_evict.list k with
      | some v0 =>
        have hfacts := ensure_space_facts c true ⟨hrc, hfc, hrs, hsum⟩
        obtain ⟨hs1, hq1, hrc1, hfc1, hroom1, hrl1, hfl1⟩ := hfacts
        cases hg1 : lookup (TwoQueueCache.ensure_space c true).recent_evict.list k with
        | none =>
          have hstep : TwoQueueCache.put c k v = none := by
            simp [TwoQueueCache.put, hf, hr, hg, hg1]
          rw [hstep] at h
          exact absurd h (by simp)
        | some v1 =>
          have hffresh : lookup (TwoQueueCache.ensure_space c true).frequent.list k = none := by
            cases hfl1 with
            | inl he => rw [he]; exact hf
            | inr he => rw [he]; exact lookup_dropLast_eq_none hf
          have hflcap : (TwoQueueCache.ensure_space c true).frequent.list.length <
              (TwoQueueCache.ensure_space c true).frequent.cap := by
            unfold sumLen at hroom1
            rw [hfc1, hfc]
            omega
          have hbox := put_box_attach (TwoQueueCache.ensure_space c true).frequent k v1
            hffresh hflcap
          have hstep : TwoQueueCache.put c k v =
              some { TwoQueueCache.ensure_space c true with
                       recent_evict := ⟨(TwoQueueCache.ensure_space c true).recent_evict.cap,
                         removeKey (TwoQueueCache.ensure_space c true).recent_evict.list k⟩,
                       frequent := ⟨(TwoQueueCache.ensure_space c true).frequent.cap,
                         (k, v1) :: (TwoQueueCache.ensure_space c true).frequent.list⟩ } := by
            simp [TwoQueueCache.put, hf, hr, hg, hg1, hbox]
          rw [hstep] at h
          obtain rfl : _ = c' := Option.some.inj h
          refine ⟨⟨by rw [hrc1, hrc, hs1], by rw [hfc1, hfc, hs1], by rw [hq1, hs1]; omega, ?_⟩,
            by rw [hs1]⟩
          unfold sumLen at hroom1 ⊢
          simp only [List.length_cons]
          rw [hs1]
          omega
      | none =>
        have hfacts := ensure_space_facts c false ⟨hrc, hfc, hrs, hsum⟩
        obtain ⟨hs1, hq1, hrc1, hfc1, hroom1, hrl1, hfl1⟩ := hfacts
        have hrfresh : lookup (TwoQueueCache.ensure_space c false).recent.list k = none := by
          cases hrl1 with
          | inl he => rw [he]; exact hr
          | inr he => rw [he]; exact lookup_dropLast_eq_none hr
        have hrlcap : (TwoQueueCache.ensure_space c false).recent.list.length <
            (TwoQueueCache.ensure_space c false).recent.cap := by
          unfold sumLen at hroom1
          rw [hrc1, hrc]
          omega
        have hput := put_fresh (TwoQueueCache.ensure_space c false).recent k v hrfresh hrlcap
        have hstep : TwoQueueCache.put c k v =
            some { TwoQueueCache.ensure_space c false with
                     recent := ⟨(TwoQueueCache.ensure_space c false).recent.cap,
                       (k, v) :: (TwoQueueCache.ensure_space c false).recent.list⟩ } := by
          simp [TwoQueueCache.put, hf, hr, hg, hput]
        rw [hstep] at h
        obtain rfl : _ = c' := Option.some.inj h
        refine ⟨⟨by rw [hrc1, hrc, hs1], by rw [hfc1, hfc, hs1], by rw [hq1, hs1]; omega, ?_⟩,
          by rw [hs1]⟩
        unfold sumLen at hroom1 ⊢
        simp only [List.length_cons]
        rw [hs1]
        omega


/-- Removal never lengthens the association list. -/
theorem removeKey_length_le {K V : Type} [DecidableEq K] (l : List (K × V)) (k : K) :
    (removeKey l k).length ≤ l.length := by
  induction l with
  | nil => simp [removeKey]
  | cons p rest ih =>
    obtain ⟨k', v'⟩ := p
    by_cases hk : k' = k
    · simp [removeKey, hk]
    · simp only [removeKey, if_neg hk, List.length_cons]
      omega

/-- Helper for C1: `TwoQueueCache::get` preserves well-formedness and the
budget. -/
theorem get2q_WF {K V : Type} [DecidableEq K] (c : TwoQueueCache K V) (k : K)
    (hWF : WF c) : WF (TwoQueueCache.get c k).2 ∧ (TwoQueueCache.get c k).2.size = c.size := by
  obtain ⟨hrc, hfc, hrs, hsum⟩ := hWF
  cases hf : lookup c.frequent.list k with
  | some v0 =>
    have hget : RawLRU.get c.frequent k =
        (some v0, ⟨c.frequent.cap, (k, v0) :: removeKey c.frequent.list k⟩) := by
      simp [RawLRU.get, hf]
    have hstep : (TwoQueueCache.get c k).2 =
        { c with frequent := ⟨c.frequent.cap, (k, v0) :: removeKey c.frequent.list k⟩ } := by
      simp [TwoQueueCache.get, hget]
    rw [hstep]
    have hrem := removeKey_length c.frequent.list k v0 hf
    refine ⟨⟨hrc, hfc, hrs, ?_⟩, rfl⟩
    unfold sumLen at hsum ⊢
    simp only [List.length_cons]
    omega
  | none =>
    have hget : RawLRU.get c.frequent k = (none, c.frequent) := by
      simp [RawLRU.get, hf]
    cases hr : lookup c.recent.list k with
    | none =>
      have hstep : (TwoQueueCache.get c k).2 = c := by
        simp [TwoQueueCache.get, hget, RawLRU.remove_and_return_ent, hr]
      rw [hstep]
      exact ⟨⟨hrc, hfc, hrs, hsum⟩, rfl⟩
    | some v0 =>
      have hrlpos := lookup_length_pos hr
      have hflcap : c.frequent.list.length < c.frequent.cap := by
        unfold sumLen at hsum
        omega
      have hbox := put_box_attach c.frequent k v0 hf hflcap
      have hstep : (TwoQueueCache.get c k).2 =
          { c with recent := ⟨c.recent.cap, removeKey c.recent.list k⟩,
                   frequent := ⟨c.frequent.cap, (k, v0) :: c.frequent.list⟩ } := by
        simp [TwoQueueCache.get, hget, RawLRU.remove_and_return_ent, hr, hbox]
      rw [hstep]
      have hrem := removeKey_length c.recent.list k v0 hr
      refine ⟨⟨hrc, hfc, hrs, ?_⟩, rfl⟩
      unfold sumLen at hsum ⊢
      simp only [List.length_cons]
      omega

/-- Helper for C1: `TwoQueueCache::remove` preserves well-formedness and the
budget. -/
theorem remove2q_WF {K V : Type} [DecidableEq K] (c : TwoQueueCache K V) (k : K)
    (hWF : WF c) :
    WF (TwoQueueCache.remove c k).2 ∧ (TwoQueueCache.remove c k).2.size = c.size := by
  obtain ⟨hrc, hfc, hrs, hsum⟩ := hWF
  have hfle := removeKey_length_le c.frequent.list k
  have hrle := removeKey_length_le c.recent.list k
  cases hf : lookup c.frequent.list k with
  | some v0 =>
    have hstep : (TwoQueueCache.remove c k).2 =
        { c with frequent := ⟨c.frequent.cap, removeKey c.frequent.list k⟩ } := by
      simp [TwoQueueCache.remove, RawLRU.remove, hf]
    rw [hstep]
    refine ⟨⟨hrc, hfc, hrs, ?_⟩, rfl⟩
    unfold sumLen at hsum ⊢
    dsimp only
    omega
  | none =>
    cases hr : lookup c.recent.list k with
    | some v0 =>
      have hstep : (TwoQueueCache.remove c k).2 =
          { c with recent := ⟨c.recent.cap, removeKey c.recent.list k⟩ } := by
        simp [TwoQueueCache.remove, RawLRU.remove, hf, hr]
      rw [hstep]
      refine ⟨⟨hrc, hfc, hrs, ?_⟩, rfl⟩
      unfold sumLen at hsum ⊢
      dsimp only
      omega
    | none =>
      cases hg : lookup c.recent_evict.list k with
      | some v0 =>
        have hstep : (TwoQueueCache.remove c k).2 =
            { c with recent_evict := ⟨c.recent_evict.cap, removeKey c.recent_evict.list k⟩ } := by
          simp [TwoQueueCache.remove, RawLRU.remove, hf, hr, hg]
        rw [hstep]
        exact ⟨⟨hrc, hfc, hrs, hsum⟩, rfl⟩
      | none =>
        have hstep : (TwoQueueCache.remove c k).2 = c := by
          simp [TwoQueueCache.remove, RawLRU.remove, hf, hr, hg]
        rw [hstep]
        exact ⟨⟨hrc, hfc, hrs, hsum⟩, rfl⟩

/-- Helper for C1: any public operation that completes preserves
well-formedness and the budget. -/
theorem step_WF {K V : Type} [DecidableEq K] (c : TwoQueueCache K V) (op : Op K V)
    (c' : TwoQueueCache K V) (hWF : WF c) (h : step c op = some c') :
    WF c' ∧ c'.size = c.size := by
  cases op with
  | put k v => exact put2q_WF c k v hWF c' h
  | get k =>
    obtain rfl : (TwoQueueCache.get c k).2 = c' := Option.some.inj h
    exact get2q_WF c k hWF
  | remove k =>
    obtain rfl : (TwoQueueCache.remove c k).2 = c' := Option.some.inj h
    exact remove2q_WF c k hWF

/-- Helper for C1: well-formedness is preserved along any completed run. -/
theorem run_WF {K V : Type} [DecidableEq K] (ops : List (Op K V)) :
    ∀ c c' : TwoQueueCache K V, WF c → run c ops = some c' →
      WF c' ∧ c'.size = c.size := by
  induction ops with
  | nil =>
    intro c c' hWF h
    obtain rfl : c = c' := Option.some.inj h
    exact ⟨hWF, rfl⟩
  | cons op rest ih =>
    intro c c' hWF h
    simp only [run] at h
    cases hstep : step c op with
    | none => rw [hstep] at h; simp at h
    | some c1 =>
      rw [hstep] at h
      simp only [Option.some_bind] at h
      obtain ⟨hWF1, hsz1⟩ := step_WF c op c1 hWF hstep
      obtain ⟨hWF2, hsz2⟩ := ih c1 c' hWF1 h
      exact ⟨hWF2, by rw [hsz2, hsz1]⟩


/-- Helper for C1/C2: a successful construction yields a well-formed cache
when `recent_ratio < 1`. -/
theorem with_2q_parameters_WF {K V : Type} [DecidableEq K] (size : Nat) (rr gr : ℚ)
    (c0 : TwoQueueCache K V) (hrr1 : rr < 1)
    (h : TwoQueueCache.with_2q_parameters K V size rr gr = .ok c0) :
    WF c0 ∧ c0.size = size := by
  unfold TwoQueueCache.with_2q_parameters at h
  by_cases h0 : size = 0
  · rw [if_pos h0] at h
    exact absurd h (by simp)
  rw [if_neg h0] at h
  by_cases h1 : rr < 0 ∨ 1 < rr
  · rw [if_pos h1] at h
    exact absurd h (by simp)
  rw [if_neg h1] at h
  by_cases h2 : gr < 0 ∨ 1 < gr
  · rw [if_pos h2] at h
    exact absurd h (by simp)
  rw [if_neg h2] at h
  dsimp only at h
  push_neg at h1
  have hsizepos : 0 < size := Nat.pos_of_ne_zero h0
  have hqpos : (0 : ℚ) < (size : ℚ) := by exact_mod_cast hsizepos
  have hmul : (size : ℚ) * rr < (size : ℚ) := by
    calc (size : ℚ) * rr < (size : ℚ) * 1 := by
          exact mul_lt_mul_of_pos_left hrr1 hqpos
      _ = (size : ℚ) := mul_one _
  have hfloor : ⌊(size : ℚ) * rr⌋ < (size : ℤ) := by
    rw [Int.floor_lt]
    exact_mod_cast hmul
  have hrsnat : (⌊(size : ℚ) * rr⌋).toNat < size := by omega
  cases hghost : RawLRU.new K V (⌊(size : ℚ) * gr⌋).toNat with
  | error e =>
    rw [hghost] at h
    exact absurd h (by simp)
  | ok ghost =>
    rw [hghost] at h
    obtain rfl : _ = c0 := Except.ok.inj h
    exact ⟨⟨rfl, rfl, hrsnat, by simp [sumLen]⟩, rfl⟩


/-- Helper: concrete construction at size 2 with the default ratios. -/
theorem two_queue_construct_2 :
    TwoQueueCache.with_2q_parameters Nat Nat 2 (1 / 4) (1 / 2) =
      .ok ⟨2, 0, ⟨2, []⟩, ⟨2, []⟩, ⟨1, []⟩⟩ := by
  unfold TwoQueueCache.with_2q_parameters RawLRU.new RawLRU.check_size
  norm_num
  rfl

/-- Helper: the default recent ratio is below 1. -/
theorem default_recent_ratio_lt_one : (1 / 4 : ℚ) < 1 := by norm_num

/-- C1 counterexample: on a freshly constructed layered cache of size 2
(default ratios 0.25 and 0.5), two puts of distinct absent keys complete and
leave `recent.len() + frequent.len() == 2 == size`, so the strict inequality
`recent.len() + frequent.len() < size` does not hold after every public
operation. -/
theorem two_queue_strict_budget_counterexample :
    TwoQueueCache.with_2q_parameters Nat Nat 2 (1 / 4) (1 / 2) =
      .ok ⟨2, 0, ⟨2, []⟩, ⟨2, []⟩, ⟨1, []⟩⟩ ∧
    run (⟨2, 0, ⟨2, []⟩, ⟨2, []⟩, ⟨1, []⟩⟩ : TwoQueueCache Nat Nat) [.put 1 1, .put 2 2] =
      some ⟨2, 0, ⟨2, [(2, 2), (1, 1)]⟩, ⟨2, []⟩, ⟨1, []⟩⟩ ∧
    ¬((⟨2, 0, ⟨2, [(2, 2), (1, 1)]⟩, ⟨2, []⟩, ⟨1, []⟩⟩ : TwoQueueCache Nat Nat).recent.list.length +
        (⟨2, 0, ⟨2, [(2, 2), (1, 1)]⟩, ⟨2, []⟩, ⟨1, []⟩⟩ :
          TwoQueueCache Nat Nat).frequent.list.length <
        (⟨2, 0, ⟨2, [(2, 2), (1, 1)]⟩, ⟨2, []⟩, ⟨1, []⟩⟩ : TwoQueueCache Nat Nat).size) :=
  ⟨two_queue_construct_2, by decide, by decide⟩

/-- C1 amended: for a layered cache constructed with `recent_ratio < 1.0`
(in particular the defaults), `recent.len() + frequent.len() ≤ size` — with
`≤`, not the claimed `<` — holds after every public operation of an
arbitrary put/get/remove interleaving that completes (a put that panics
returns no state; every prefix of a run is a run, so the bound holds after
every call).  With `recent_ratio = 1.0` even the `≤` bound is violated on a
reachable ghost-promotion, which forces the ratio hypothesis. -/
theorem two_queue_budget_after_run {K V : Type} [DecidableEq K] (size : Nat) (rr gr : ℚ)
    (c0 : TwoQueueCache K V) (hrr1 : rr < 1)
    (hctor : TwoQueueCache.with_2q_parameters K V size rr gr = .ok c0)
    (ops : List (Op K V)) (c' : TwoQueueCache K V) (hrun : run c0 ops = some c') :
    c'.recent.list.length + c'.frequent.list.length ≤ size := by
  obtain ⟨hWF0, hsz0⟩ := with_2q_parameters_WF size rr gr c0 hrr1 hctor
  obtain ⟨⟨h1, h2, h3, hsum⟩, hsz⟩ := run_WF ops c0 c' hWF0 hrun
  unfold sumLen at hsum
  omega

/-- C1 witness: `two_queue_budget_after_run` on the size-2 default-ratio
cache after one put. -/
theorem two_queue_budget_after_run_witness :
    (⟨2, 0, ⟨2, [(1, 1)]⟩, ⟨2, []⟩, ⟨1, []⟩⟩ : TwoQueueCache Nat Nat).recent.list.length +
      (⟨2, 0, ⟨2, [(1, 1)]⟩, ⟨2, []⟩, ⟨1, []⟩⟩ : TwoQueueCache Nat Nat).frequent.list.length ≤
      2 :=
  two_queue_budget_after_run 2 (1 / 4) (1 / 2) _ default_recent_ratio_lt_one
    two_queue_construct_2 [.put 1 1] _ (by decide)

/-- C2 amended: layered-cache construction succeeds iff `size > 0`, both
ratios lie in `[0, 1]`, **and** `⌊size · ghost_ratio⌋ ≥ 1` — the ghost
engine is built with `RawLRU::new(⌊size·gr⌋)?`, so a zero ghost capacity
fails construction with `InvalidSize(0)` even for valid inputs.  The three
claimed error cases are as stated, checked in order (`InvalidSize size`,
then `InvalidRecentRatio`, then `InvalidGhostRatio`), with the extra
`InvalidSize 0` case when the ghost capacity floors to zero; `new`,
`with_recent_ratio` and `with_ghost_ratio` delegate with the default ratios
0.25 and 0.5 (the hasher-accepting variants of the source perform the
identical checks). -/
theorem with_2q_parameters_spec (K V : Type) [DecidableEq K] (size : Nat) (rr gr : ℚ) :
    ((∃ c, TwoQueueCache.with_2q_parameters K V size rr gr = .ok c) ↔
      (0 < size ∧ 0 ≤ rr ∧ rr ≤ 1 ∧ 0 ≤ gr ∧ gr ≤ 1 ∧ 1 ≤ ⌊(size : ℚ) * gr⌋)) ∧
    (size = 0 →
      TwoQueueCache.with_2q_parameters K V size rr gr = .error (.InvalidSize size)) ∧
    (size ≠ 0 → (rr < 0 ∨ 1 < rr) →
      TwoQueueCache.with_2q_parameters K V size rr gr = .error (.InvalidRecentRatio rr)) ∧
    (size ≠ 0 → 0 ≤ rr → rr ≤ 1 → (gr < 0 ∨ 1 < gr) →
      TwoQueueCache.with_2q_parameters K V size rr gr = .error (.InvalidGhostRatio gr)) ∧
    (size ≠ 0 → 0 ≤ rr → rr ≤ 1 → 0 ≤ gr → gr ≤ 1 → ⌊(size : ℚ) * gr⌋ < 1 →
      TwoQueueCache.with_2q_parameters K V size rr gr = .error (.InvalidSize 0)) ∧
    TwoQueueCache.new K V size = TwoQueueCache.with_2q_parameters K V size (1 / 4) (1 / 2) ∧
    TwoQueueCache.with_recent_ratio K V size rr =
      TwoQueueCache.with_2q_parameters K V size rr (1 / 2) ∧
    TwoQueueCache.with_ghost_ratio K V size gr =
      TwoQueueCache.with_2q_parameters K V size (1 / 4) gr := by
  refine ⟨⟨?_, ?_⟩, ?_, ?_, ?_, ?_, rfl, rfl, rfl⟩
  · rintro ⟨c, hc⟩
    unfold TwoQueueCache.with_2q_parameters at hc
    by_cases h0 : size = 0
    · rw [if_pos h0] at hc
      simp at hc
    rw [if_neg h0] at hc
    by_cases h1 : rr < 0 ∨ 1 < rr
    · rw [if_pos h1] at hc
      simp at hc
    rw [if_neg h1] at hc
    by_cases h2 : gr < 0 ∨ 1 < gr
    · rw [if_pos h2] at hc
      simp at hc
    rw [if_neg h2] at hc
    dsimp only at hc
    push_neg at h1 h2
    cases hghost : RawLRU.new K V (⌊(size : ℚ) * gr⌋).toNat with
    | error e =>
      rw [hghost] at hc
      simp at hc
    | ok ghost =>
      have hnez : (⌊(size : ℚ) * gr⌋).toNat ≠ 0 := by
        intro hz
        rw [hz] at hghost
        simp [RawLRU.new, RawLRU.check_size, Except.map] at hghost
      exact ⟨Nat.pos_of_ne_zero h0, h1.1, h1.2, h2.1, h2.2, by omega⟩
  · rintro ⟨hs, hrr0, hrr1, hgr0, hgr1, hes⟩
    unfold TwoQueueCache.with_2q_parameters
    rw [if_neg (by omega), if_neg (not_or.mpr ⟨not_lt.mpr hrr0, not_lt.mpr hrr1⟩),
      if_neg (not_or.mpr ⟨not_lt.mpr hgr0, not_lt.mpr hgr1⟩)]
    dsimp only
    have hnez : (⌊(size : ℚ) * gr⌋).toNat ≠ 0 := by omega
    have hnew : RawLRU.new K V (⌊(size : ℚ) * gr⌋).toNat =
        .ok ⟨(⌊(size : ℚ) * gr⌋).toNat, []⟩ := by
      unfold RawLRU.new RawLRU.check_size
      rw [if_neg hnez]
      rfl
    rw [hnew]
    exact ⟨_, rfl⟩
  · intro h0
    unfold TwoQueueCache.with_2q_parameters
    rw [if_pos h0]
  · intro h0 h1
    unfold TwoQueueCache.with_2q_parameters
    rw [if_neg h0, if_pos h1]
  · intro h0 hrr0 hrr1 h2
    unfold TwoQueueCache.with_2q_parameters
    rw [if_neg h0, if_neg (not_or.mpr ⟨not_lt.mpr hrr0, not_lt.mpr hrr1⟩), if_pos h2]
  · intro h0 hrr0 hrr1 hgr0 hgr1 hfl
    unfold TwoQueueCache.with_2q_parameters
    rw [if_neg h0, if_neg (not_or.mpr ⟨not_lt.mpr hrr0, not_lt.mpr hrr1⟩),
      if_neg (not_or.mpr ⟨not_lt.mpr hgr0, not_lt.mpr hgr1⟩)]
    dsimp only
    have hz : (⌊(size : ℚ) * gr⌋).toNat = 0 := by omega
    rw [hz]
    rfl

/-- C2 witness: `with_2q_parameters_spec` at `size = 0`. -/
theorem with_2q_parameters_spec_witness :
    TwoQueueCache.with_2q_parameters Nat Nat 0 (1 / 4) (1 / 2) =
      .error (.InvalidSize 0) :=
  (with_2q_parameters_spec Nat Nat 0 (1 / 4) (1 / 2)).2.1 rfl

/-- C2 counterexample: `size = 1 > 0` with the default ratios, both inside
`[0, 1]`, yet construction fails (with `InvalidSize 0`, an error case the
claim does not list): `⌊1 · 0.5⌋ = 0` and the ghost engine rejects capacity
0. -/
theorem with_2q_parameters_size_one_counterexample :
    0 < 1 ∧ (0 : ℚ) ≤ 1 / 4 ∧ (1 / 4 : ℚ) ≤ 1 ∧ (0 : ℚ) ≤ 1 / 2 ∧ (1 / 2 : ℚ) ≤ 1 ∧
    TwoQueueCache.with_2q_parameters Nat Nat 1 (1 / 4) (1 / 2) =
      .error (.InvalidSize 0) := by
  refine ⟨by norm_num, by norm_num, by norm_num, by norm_num, by norm_num, ?_⟩
  unfold TwoQueueCache.with_2q_parameters RawLRU.new RawLRU.check_size
  norm_num
  rfl

/-- C9: the promotion state machine on a fresh layered cache (`new(128)`):
`put(1,1)` inserts into `recent` (`recent.len() == 1`, `frequent.len() == 0`);
a second `put(1,1)` moves the same entry (the identical `(1,1)` pair, no
eviction notification — the sub-engines carry the no-op callback) into
`frequent` (`recent.len() == 0`, `frequent.len() == 1`); a third `put(1,1)`
hits the frequent tier and leaves both lengths unchanged. -/
theorem two_queue_promotion_scenario :
    TwoQueueCache.new Nat Nat 128 = .ok ⟨128, 32, ⟨128, []⟩, ⟨128, []⟩, ⟨64, []⟩⟩ ∧
    TwoQueueCache.put (⟨128, 32, ⟨128, []⟩, ⟨128, []⟩, ⟨64, []⟩⟩ : TwoQueueCache Nat Nat) 1 1 =
      some ⟨128, 32, ⟨128, [(1, 1)]⟩, ⟨128, []⟩, ⟨64, []⟩⟩ ∧
    (⟨128, 32, ⟨128, [(1, 1)]⟩, ⟨128, []⟩, ⟨64, []⟩⟩ :
        TwoQueueCache Nat Nat).recent.list.length = 1 ∧
    (⟨128, 32, ⟨128, [(1, 1)]⟩, ⟨128, []⟩, ⟨64, []⟩⟩ :
        TwoQueueCache Nat Nat).frequent.list.length = 0 ∧
    TwoQueueCache.put (⟨128, 32, ⟨128, [(1, 1)]⟩, ⟨128, []⟩, ⟨64, []⟩⟩ :
        TwoQueueCache Nat Nat) 1 1 =
      some ⟨128, 32, ⟨128, []⟩, ⟨128, [(1, 1)]⟩, ⟨64, []⟩⟩ ∧
    (⟨128, 32, ⟨128, []⟩, ⟨128, [(1, 1)]⟩, ⟨64, []⟩⟩ :
        TwoQueueCache Nat Nat).recent.list.length = 0 ∧
    (⟨128, 32, ⟨128, []⟩, ⟨128, [(1, 1)]⟩, ⟨64, []⟩⟩ :
        TwoQueueCache Nat Nat).frequent.list.length = 1 ∧
    TwoQueueCache.put (⟨128, 32, ⟨128, []⟩, ⟨128, [(1, 1)]⟩, ⟨64, []⟩⟩ :
        TwoQueueCache Nat Nat) 1 1 =
      some ⟨128, 32, ⟨128, []⟩, ⟨128, [(1, 1)]⟩, ⟨64, []⟩⟩ := by
  refine ⟨?_, by decide, by decide, by decide, by decide, by decide, by decide, by decide⟩
  unfold TwoQueueCache.new DEFAULT_2Q_RECENT_RATIO DEFAULT_2Q_GHOST_RATIO
  unfold TwoQueueCache.with_2q_parameters RawLRU.new RawLRU.check_size
  norm_num
  rfl

end Caches
